import Mathlib

/-!
Shallow embedding of `src/main.cpp` (Lab_TransformReduce).

The program provides a hand-rolled fixed-fan-out parallel combinator
`manual_parallel_transform_reduce(first, last, init, reduce_op, transform_op, K)`:

* if `n <= 0 || K == 0` it returns `init` unchanged;
* otherwise it clamps `K` to `n` when `n < K`;
* it splits the input into `K` contiguous blocks of size `base + 1` for the
  first `rem` blocks and `base` for the rest, where `base = n / K`,
  `rem = n % K`;
* each worker computes `std::transform_reduce(bs, be, T{}, reduce_op,
  transform_op)` over its own block, seeded with the value-initialized `T{}`,
  and stores the value into its own slot of `partials`;
* after joining all workers the partial results are folded sequentially, in
  block index order, starting from `init`.

Threads each write a distinct slot, the engine joins before reading, so the
whole call is observationally the sequential program modelled below: the list
of per-block transform-folds, merged by a left fold from `init`.

The sweep driver in `main` is modelled by `sweepBest`: it starts from
`best_time = 1e18`, `best_K = 1` and replaces the best pair exactly when the
new time is strictly smaller.  Times are modelled as rationals: the driver
only ever compares times, and comparison of (finite, non-NaN) doubles agrees
with the rational order; `1e18` is exactly representable as a double.
-/

namespace LabTransformReduce

/-- left transform-then-fold: models `std::transform_reduce(first, last, seed, op, f)`
over the element range, with the seed combined first. -/
def transformFold {α T : Type} (op : T → T → T) (f : α → T) (seed : T) (xs : List α) : T :=
  xs.foldl (fun acc x => op acc (f x)) seed

/-- block sizes of the partitioner: `base = n / K`, `rem = n % K`; block `i`
has size `base + 1` when `i < rem`, else `base` (main.cpp lines 41-48). -/
def blockSizes (n K : Nat) : List Nat :=
  (List.range K).map (fun i => n / K + if i < n % K then 1 else 0)

/-- cut a list into consecutive blocks of the given sizes: models the loop
advancing `block_start` by `block_size` each iteration (main.cpp lines 45-62). -/
def takeBlocks {α : Type} (xs : List α) : List Nat → List (List α)
  | [] => []
  | s :: ss => xs.take s :: takeBlocks (xs.drop s) ss

/-- the clamp `if (n < K) K = n;` of main.cpp lines 34-35. -/
def effectiveK (n K : Nat) : Nat :=
  if n < K then n else K

/-- the list of blocks the engine builds for a clamped worker count `K`. -/
def blocksOf {α : Type} (xs : List α) (K : Nat) : List (List α) :=
  takeBlocks xs (blockSizes xs.length K)

/-- the vector `partials`: slot `i` holds the transform-reduce of block `i`
seeded with the value-initialized `T{}` (modelled by `dflt`), main.cpp
lines 37 and 55-60.  The caller's `init` does not occur. -/
def partials {α T : Type} (dflt : T) (op : T → T → T) (f : α → T)
    (xs : List α) (K : Nat) : List T :=
  (blocksOf xs (effectiveK xs.length K)).map (transformFold op f dflt)

/-- the engine `manual_parallel_transform_reduce` of main.cpp lines 23-73.
`dflt` models the value-initialized `T{}` used to seed every per-block fold. -/
def manual_parallel_transform_reduce {α T : Type} (dflt : T) (xs : List α)
    (init : T) (op : T → T → T) (f : α → T) (K : Nat) : T :=
  if xs.length = 0 ∨ K = 0 then init
  else
    ((takeBlocks xs (blockSizes xs.length (effectiveK xs.length K))).map
      (fun b => b.foldl (fun acc x => op acc (f x)) dflt)).foldl op init

/-- one step of the sweep driver's best-K selection (main.cpp lines 163-166):
replace the current best exactly when the new time is strictly smaller. -/
def sweepStep (best kt : Nat × ℚ) : Nat × ℚ :=
  if kt.2 < best.2 then kt else best

/-- the sweep driver's selection over a recorded `(K, time)` table, starting
from `best_time = 1e18`, `best_K = 1` (main.cpp lines 146-167). -/
def sweepBest (table : List (Nat × ℚ)) : Nat × ℚ :=
  table.foldl sweepStep (1, 10 ^ 18)

/-! Helper lemmas. -/

lemma takeBlocks_length {α : Type} : ∀ (ss : List Nat) (xs : List α),
    (takeBlocks xs ss).length = ss.length
  | [], _ => rfl
  | s :: ss, xs => by
      simp [takeBlocks, takeBlocks_length ss]

lemma takeBlocks_flatten {α : Type} : ∀ (ss : List Nat) (xs : List α),
    (takeBlocks xs ss).flatten = xs.take ss.sum
  | [], xs => by simp [takeBlocks]
  | s :: ss, xs => by
      simp only [takeBlocks, List.flatten_cons, takeBlocks_flatten ss,
        List.sum_cons, List.take_add]

lemma blockSizes_length (n K : Nat) : (blockSizes n K).length = K := by
  simp [blockSizes]

lemma range_map_const_add_sum (b r : Nat) : ∀ K : Nat,
    ((List.range K).map (fun i => b + if i < r then 1 else 0)).sum
      = K * b + min r K
  | 0 => by simp
  | K + 1 => by
      rw [List.range_succ, List.map_append, List.sum_append,
        range_map_const_add_sum b r K]
      simp only [List.map_cons, List.map_nil, List.sum_cons, List.sum_nil]
      rw [Nat.add_mul, Nat.one_mul]
      by_cases h : K < r
      · rw [if_pos h]
        omega
      · rw [if_neg h]
        omega

lemma blockSizes_sum (n K : Nat) (hK : 0 < K) : (blockSizes n K).sum = n := by
  rw [blockSizes, range_map_const_add_sum]
  have h1 : n % K < K := Nat.mod_lt _ hK
  have h2 := Nat.div_add_mod n K
  omega

lemma blocksOf_flatten {α : Type} (xs : List α) (K : Nat) (hK : 0 < K) :
    (blocksOf xs K).flatten = xs := by
  rw [blocksOf, takeBlocks_flatten, blockSizes_sum _ _ hK, List.take_length]

lemma effectiveK_pos (n K : Nat) (hn : 0 < n) (hK : 0 < K) :
    0 < effectiveK n K := by
  rw [effectiveK]; split <;> omega

lemma effectiveK_eq_min (n K : Nat) : effectiveK n K = min K n := by
  rw [effectiveK]; split <;> omega

/-- folding from a combined seed `op a b` pulls `a` out, by associativity. -/
lemma foldl_op_shift {α T : Type} (op : T → T → T) (f : α → T)
    (hassoc : ∀ x y z, op (op x y) z = op x (op y z)) :
    ∀ (l : List α) (a b : T),
      l.foldl (fun acc x => op acc (f x)) (op a b)
        = op a (l.foldl (fun acc x => op acc (f x)) b)
  | [], _, _ => rfl
  | x :: l, a, b => by
      simp only [List.foldl_cons]
      rw [hassoc, foldl_op_shift op f hassoc l]

/-- merging identity-seeded block folds from `v` computes the plain
transform-fold of the concatenation from `v`. -/
lemma foldl_map_transformFold {α T : Type} (dflt : T) (op : T → T → T)
    (f : α → T) (hassoc : ∀ x y z, op (op x y) z = op x (op y z))
    (hrid : ∀ x, op x dflt = x) :
    ∀ (bls : List (List α)) (v : T),
      ((bls.map (transformFold op f dflt)).foldl op v)
        = transformFold op f v bls.flatten
  | [], v => rfl
  | b :: bls, v => by
      simp only [List.map_cons, List.foldl_cons, List.flatten_cons]
      have h1 : op v (transformFold op f dflt b) = transformFold op f v b := by
        rw [transformFold, transformFold, ← foldl_op_shift op f hassoc, hrid]
      rw [h1, foldl_map_transformFold dflt op f hassoc hrid bls]
      simp [transformFold, List.foldl_append]

/-- the engine, on a non-degenerate call, is the merge of the identity-seeded
block folds. -/
lemma manual_eq_partials_foldl {α T : Type} (dflt : T) (xs : List α)
    (init : T) (op : T → T → T) (f : α → T) (K : Nat)
    (hn : xs ≠ []) (hK : 1 ≤ K) :
    manual_parallel_transform_reduce dflt xs init op f K
      = (partials dflt op f xs K).foldl op init := by
  have hlen : xs.length ≠ 0 := by simpa using hn
  rw [manual_parallel_transform_reduce, if_neg (by omega)]
  rfl

/-- with an associative `op` whose right identity is `dflt`, the engine equals
the sequential transform-fold from `init`, for every `K ≥ 1`. -/
lemma manual_eq_transformFold {α T : Type} (dflt : T) (xs : List α)
    (init : T) (op : T → T → T) (f : α → T) (K : Nat)
    (hassoc : ∀ x y z, op (op x y) z = op x (op y z))
    (hrid : ∀ x, op x dflt = x) (hK : 1 ≤ K) :
    manual_parallel_transform_reduce dflt xs init op f K
      = transformFold op f init xs := by
  by_cases hn : xs = []
  · subst hn
    simp [manual_parallel_transform_reduce, transformFold]
  · have hlen : 0 < xs.length := List.length_pos.mpr hn
    rw [manual_eq_partials_foldl dflt xs init op f K hn hK, partials,
      foldl_map_transformFold dflt op f hassoc hrid,
      blocksOf_flatten _ _ (effectiveK_pos _ _ hlen (by omega))]

lemma ceil_div_eq (n K : Nat) (hK : 0 < K) (hr : n % K ≠ 0) :
    (n + K - 1) / K = n / K + 1 := by
  have h1 : n + K - 1 = n + (K - 1) := by omega
  rw [h1, Nat.add_div hK]
  have h2 : (K - 1) / K = 0 := Nat.div_eq_of_lt (by omega)
  have h3 : (K - 1) % K = K - 1 := Nat.mod_eq_of_lt (by omega)
  rw [h2, h3]
  have h5 : K ≤ n % K + (K - 1) := by omega
  rw [if_pos h5]

/-- a fold over positions with default-valued indexing is the fold over the
list itself. -/
lemma foldl_range_getD {β T : Type} (g : T → β → T) (d : β) :
    ∀ (l : List β) (b : T),
      (List.range l.length).foldl (fun acc i => g acc (l.getD i d)) b
        = l.foldl g b
  | [], _ => rfl
  | x :: t, b => by
      have hlen : (x :: t).length = t.length + 1 := rfl
      rw [hlen, List.range_succ_eq_map, List.foldl_cons, List.foldl_map]
      simp only [List.getD_cons_zero, List.getD_cons_succ]
      rw [foldl_range_getD g d t (g b x), List.foldl_cons]

lemma takeBlocks_getD {α : Type} : ∀ (ss : List Nat) (xs : List α) (i : Nat),
    i < ss.length →
    (takeBlocks xs ss).getD i []
      = (xs.drop ((ss.take i).sum)).take (ss.getD i 0)
  | [], _, i, hi => by simp at hi
  | s :: ss, xs, 0, _ => by
      simp [takeBlocks]
  | s :: ss, xs, i + 1, hi => by
      have hi' : i < ss.length := by simpa using hi
      simp only [takeBlocks, List.getD_cons_succ, List.take_succ_cons,
        List.sum_cons]
      rw [takeBlocks_getD ss (xs.drop s) i hi', List.drop_drop]

lemma blockSizes_take_sum (n K i : Nat) (hi : i ≤ K) :
    ((blockSizes n K).take i).sum = i * (n / K) + min i (n % K) := by
  rw [blockSizes, ← List.map_take, List.take_range, Nat.min_eq_left hi,
    range_map_const_add_sum]
  rw [Nat.min_comm]

lemma blockSizes_getD (n K i : Nat) (hi : i < K) :
    (blockSizes n K).getD i 0 = n / K + if i < n % K then 1 else 0 := by
  rw [blockSizes, List.getD_eq_getElem?_getD, List.getElem?_map,
    List.getElem?_range hi]
  rfl

/-! Helper lemmas for the sweep driver's selection. -/

lemma foldl_sweepStep_mem : ∀ (l : List (Nat × ℚ)) (b : Nat × ℚ),
    l.foldl sweepStep b = b ∨ l.foldl sweepStep b ∈ l
  | [], _ => Or.inl rfl
  | q :: l, b => by
      rw [List.foldl_cons, sweepStep]
      split
      · rcases foldl_sweepStep_mem l q with h | h
        · exact Or.inr (by rw [h]; exact List.mem_cons_self q l)
        · exact Or.inr (List.mem_cons_of_mem q h)
      · rcases foldl_sweepStep_mem l b with h | h
        · exact Or.inl h
        · exact Or.inr (List.mem_cons_of_mem q h)

lemma foldl_sweepStep_skip : ∀ (l : List (Nat × ℚ)) (b : Nat × ℚ),
    (∀ q ∈ l, b.2 ≤ q.2) → l.foldl sweepStep b = b
  | [], _, _ => rfl
  | q :: l, b, h => by
      rw [List.foldl_cons, sweepStep,
        if_neg (not_lt.mpr (h q (List.mem_cons_self q l)))]
      exact foldl_sweepStep_skip l b (fun p hp => h p (List.mem_cons_of_mem q hp))

/-- whenever some entry lies strictly below the `1e18` sentinel, the sweep
selection returns the first entry attaining the minimal time. -/
lemma sweepBest_first_min (pre post : List (Nat × ℚ)) (p : Nat × ℚ)
    (hbig : p.2 < 10 ^ 18)
    (hpre : ∀ q ∈ pre, p.2 < q.2)
    (hpost : ∀ q ∈ post, p.2 ≤ q.2) :
    sweepBest (pre ++ p :: post) = p := by
  rw [sweepBest, List.foldl_append, List.foldl_cons]
  have hr : p.2 < (pre.foldl sweepStep (1, 10 ^ 18)).2 := by
    rcases foldl_sweepStep_mem pre (1, 10 ^ 18) with h | h
    · rw [h]; exact hbig
    · exact hpre _ h
  have hstep : sweepStep (pre.foldl sweepStep (1, 10 ^ 18)) p = p := by
    rw [sweepStep, if_pos hr]
  rw [hstep]
  exact foldl_sweepStep_skip post p hpost

/-! The claims. -/

/-- C1: for every finite sequence, initial value, associative combine
operation whose neutral element is the value-initialized `T\x7b\x7d` (modelled by
`dflt`), every transform, and every `K ≥ 1`,
`manual_parallel_transform_reduce` returns the sequential left fold of the
combine over the transformed elements started from the initial value; in
particular the result is independent of `K`. -/
theorem claim_c1 (T α : Type) (dflt : T) (op : T → T → T) (f : α → T)
    (xs : List α) (init : T) (K : Nat)
    (hassoc : ∀ x y z, op (op x y) z = op x (op y z))
    (_hlid : ∀ x, op dflt x = x) (hrid : ∀ x, op x dflt = x)
    (hK : 1 ≤ K) (K2 : Nat) (hK2 : 1 ≤ K2) :
    manual_parallel_transform_reduce dflt xs init op f K
      = transformFold op f init xs
    ∧ manual_parallel_transform_reduce dflt xs init op f K
      = manual_parallel_transform_reduce dflt xs init op f K2 := by
  have h1 := manual_eq_transformFold dflt xs init op f K hassoc hrid hK
  have h2 := manual_eq_transformFold dflt xs init op f K2 hassoc hrid hK2
  exact ⟨h1, by rw [h1, h2]⟩

/-- C1 witness: sum of squares of `[1, 2, 3]` from initial value `5`,
computed with `K = 2` blocks, equals the sequential fold and the `K = 3`
run. -/
theorem claim_c1_witness :
    manual_parallel_transform_reduce (0 : Int) [1, 2, 3] 5
        (fun a b => a + b) (fun x => x * x) 2
      = transformFold (fun a b => a + b) (fun x => x * x) 5 [1, 2, 3]
    ∧ manual_parallel_transform_reduce (0 : Int) [1, 2, 3] 5
        (fun a b => a + b) (fun x => x * x) 2
      = manual_parallel_transform_reduce (0 : Int) [1, 2, 3] 5
        (fun a b => a + b) (fun x => x * x) 3 :=
  claim_c1 Int Int 0 (fun a b => a + b) (fun x => x * x) [1, 2, 3] 5 2
    (fun x y z => add_assoc x y z) (fun x => zero_add x) (fun x => add_zero x)
    (by omega) 3 (by omega)

/-- C2: for `1 ≤ K ≤ n` the partitioning produces exactly `K` blocks, block
`i` has size `n / K + 1` when `i < n % K` and `n / K` otherwise, the sizes
sum to `n`, each size is the floor or the ceiling of `n / K`, no block is
empty, and the blocks laid out contiguously from index `0` cover every
element exactly once in order (their concatenation is the whole sequence). -/
theorem claim_c2 (n K : Nat) (hK : 1 ≤ K) (hKn : K ≤ n) :
    (blockSizes n K).length = K
    ∧ (∀ i, i < K →
        (blockSizes n K).getD i 0 = n / K + if i < n % K then 1 else 0)
    ∧ (blockSizes n K).sum = n
    ∧ (∀ s ∈ blockSizes n K, s = n / K ∨ s = (n + K - 1) / K)
    ∧ (∀ s ∈ blockSizes n K, 0 < s)
    ∧ (∀ (α : Type) (xs : List α), xs.length = n →
        (takeBlocks xs (blockSizes n K)).flatten = xs) := by
  refine ⟨blockSizes_length n K, fun i hi => blockSizes_getD n K i hi,
    blockSizes_sum n K (by omega), ?_, ?_, ?_⟩
  · intro s hs
    rw [blockSizes] at hs
    simp only [List.mem_map, List.mem_range] at hs
    obtain ⟨i, hi, rfl⟩ := hs
    by_cases h : i < n % K
    · rw [if_pos h, ceil_div_eq n K (by omega) (by omega)]
      exact Or.inr rfl
    · rw [if_neg h]
      exact Or.inl (Nat.add_zero _)
  · intro s hs
    rw [blockSizes] at hs
    simp only [List.mem_map, List.mem_range] at hs
    obtain ⟨i, hi, rfl⟩ := hs
    have hdiv : 1 ≤ n / K := (Nat.one_le_div_iff (by omega)).mpr hKn
    by_cases h : i < n % K
    · rw [if_pos h]; omega
    · rw [if_neg h]; omega
  · intro α xs hlen
    subst hlen
    exact blocksOf_flatten xs K (by omega)

/-- C2 witness: partitioning `n = 5` elements into `K = 2` blocks, the
sizes sum to `5`. -/
theorem claim_c2_witness : (blockSizes 5 2).sum = 5 :=
  (claim_c2 5 2 (by omega) (by omega)).2.2.1

/-- C3: on a non-empty sequence with `K ≥ 1`, the engine is the merge, from
the caller's initial value, of the `partials`; `partials` seeds every
per-block fold with `dflt` (the model of the value-initialized `T\x7b\x7d`, which
is the combine's neutral element in the intended use) and does not take the
caller's initial value at all, so the initial value enters exactly once,
during the final merge. -/
theorem claim_c3 (T α : Type) (dflt : T) (op : T → T → T) (f : α → T)
    (xs : List α) (init : T) (K : Nat) (hn : xs ≠ []) (hK : 1 ≤ K) :
    manual_parallel_transform_reduce dflt xs init op f K
      = (partials dflt op f xs K).foldl op init :=
  manual_eq_partials_foldl dflt xs init op f K hn hK

/-- C3 witness: the engine on `[1, 2, 3]` with initial value `7` and `K = 2`
is the merge of the zero-seeded partial results started from `7`. -/
theorem claim_c3_witness :
    manual_parallel_transform_reduce (0 : Int) [1, 2, 3] 7
        (fun a b => a + b) (fun x => x * x) 2
      = (partials (0 : Int) (fun a b => a + b) (fun x => x * x) [1, 2, 3] 2).foldl
          (fun a b => a + b) 7 :=
  claim_c3 Int Int 0 (fun a b => a + b) (fun x => x * x) [1, 2, 3] 7 2
    (by simp) (by omega)

/-- C4: on a non-empty sequence with `K ≥ 1`, the returned value is the left
fold of the combine over the per-block partial results taken in increasing
block index order `0 .. effectiveK - 1`, starting from the caller's initial
value. -/
theorem claim_c4 (T α : Type) (dflt : T) (op : T → T → T) (f : α → T)
    (xs : List α) (init : T) (K : Nat) (hn : xs ≠ []) (hK : 1 ≤ K) :
    manual_parallel_transform_reduce dflt xs init op f K
      = (List.range (effectiveK xs.length K)).foldl
          (fun acc i =>
            op acc (transformFold op f dflt
              ((blocksOf xs (effectiveK xs.length K)).getD i [])))
          init := by
  have hlen : (blocksOf xs (effectiveK xs.length K)).length
      = effectiveK xs.length K := by
    rw [blocksOf, takeBlocks_length, blockSizes_length]
  have h2 := foldl_range_getD (fun acc b => op acc (transformFold op f dflt b))
    ([] : List α) (blocksOf xs (effectiveK xs.length K)) init
  rw [hlen] at h2
  rw [manual_eq_partials_foldl dflt xs init op f K hn hK, partials,
    List.foldl_map, ← h2]

/-- C4 witness: the engine on `[1, 2, 3, 4, 5]` with `K = 2` is the fold of
the block partials over indices `0, 1` starting from the initial value `0`. -/
theorem claim_c4_witness :
    manual_parallel_transform_reduce (0 : Int) [1, 2, 3, 4, 5] 0
        (fun a b => a + b) (fun x => x * x) 2
      = (List.range (effectiveK ([1, 2, 3, 4, 5] : List Int).length 2)).foldl
          (fun acc i =>
            (fun a b => a + b) acc
              (transformFold (fun a b => a + b) (fun x => x * x) (0 : Int)
                ((blocksOf ([1, 2, 3, 4, 5] : List Int)
                  (effectiveK ([1, 2, 3, 4, 5] : List Int).length 2)).getD i [])))
          0 :=
  claim_c4 Int Int 0 (fun a b => a + b) (fun x => x * x) [1, 2, 3, 4, 5] 0 2
    (by simp) (by omega)

/-- C5: on the empty sequence the engine returns the initial value unchanged
for every `K`, and with `K = 0` it returns the initial value unchanged for
every sequence; in both cases the result does not depend on the elements,
the transform or the combine (no worker runs, no element is read). -/
theorem claim_c5 (T α : Type) (dflt init : T) (op : T → T → T) (f : α → T) :
    (∀ K : Nat,
      manual_parallel_transform_reduce dflt ([] : List α) init op f K = init)
    ∧ (∀ xs : List α,
      manual_parallel_transform_reduce dflt xs init op f 0 = init) := by
  constructor
  · intro K
    simp [manual_parallel_transform_reduce]
  · intro xs
    simp [manual_parallel_transform_reduce]

/-- C6: for a non-empty sequence and `K ≥ 1` the effective worker count (the
clamped `K`, which is also the number of partial results) is `min K n`, and
for `K ≥ n` the engine returns exactly the value of the call with `K = n`. -/
theorem claim_c6 (T α : Type) (dflt init : T) (op : T → T → T) (f : α → T)
    (xs : List α) (K : Nat) (hn : 0 < xs.length) (hK : 1 ≤ K) :
    effectiveK xs.length K = min K xs.length
    ∧ (partials dflt op f xs K).length = min K xs.length
    ∧ (xs.length ≤ K →
        manual_parallel_transform_reduce dflt xs init op f K
          = manual_parallel_transform_reduce dflt xs init op f xs.length) := by
  refine ⟨effectiveK_eq_min _ _, ?_, ?_⟩
  · rw [partials, List.length_map, blocksOf, takeBlocks_length,
      blockSizes_length, effectiveK_eq_min]
  · intro hle
    have h1 : effectiveK xs.length K = xs.length := by
      rw [effectiveK]; split <;> omega
    have h2 : effectiveK xs.length xs.length = xs.length := by
      rw [effectiveK]; split <;> omega
    rw [manual_parallel_transform_reduce, manual_parallel_transform_reduce,
      h1, h2, if_neg (by omega), if_neg (by omega)]

/-- C6 witness: on a 3-element sequence with requested `K = 5`, the clamp
and the partial-result count give `min 5 3 = 3`, and the `K = 5` call equals
the `K = 3` call. -/
theorem claim_c6_witness :
    effectiveK ([1, 2, 3] : List Int).length 5 = min 5 ([1, 2, 3] : List Int).length
    ∧ (partials (0 : Int) (fun a b => a + b) (fun x => x * x) [1, 2, 3] 5).length
        = min 5 ([1, 2, 3] : List Int).length
    ∧ (([1, 2, 3] : List Int).length ≤ 5 →
        manual_parallel_transform_reduce (0 : Int) [1, 2, 3] 0
            (fun a b => a + b) (fun x => x * x) 5
          = manual_parallel_transform_reduce (0 : Int) [1, 2, 3] 0
            (fun a b => a + b) (fun x => x * x) ([1, 2, 3] : List Int).length) :=
  claim_c6 Int Int 0 0 (fun a b => a + b) (fun x => x * x) [1, 2, 3] 5
    (by simp) (by omega)

/-- C7: for an associative combine whose neutral element is `dflt` (the model
of the value-initialized `T\x7b\x7d`), and any `K ≥ 1`, running the engine from an
arbitrary initial value equals combining that initial value with the run
from the neutral element. -/
theorem claim_c7 (T α : Type) (dflt : T) (op : T → T → T) (f : α → T)
    (xs : List α) (init : T) (K : Nat)
    (hassoc : ∀ x y z, op (op x y) z = op x (op y z))
    (_hlid : ∀ x, op dflt x = x) (hrid : ∀ x, op x dflt = x) (hK : 1 ≤ K) :
    manual_parallel_transform_reduce dflt xs init op f K
      = op init (manual_parallel_transform_reduce dflt xs dflt op f K) := by
  rw [manual_eq_transformFold dflt xs init op f K hassoc hrid hK,
    manual_eq_transformFold dflt xs dflt op f K hassoc hrid hK,
    transformFold, transformFold, ← foldl_op_shift op f hassoc, hrid]

/-- C7 witness: sum of squares of `[1, 2, 3]` with `K = 2` from initial
value `10` equals `10` plus the zero-seeded run. -/
theorem claim_c7_witness :
    manual_parallel_transform_reduce (0 : Int) [1, 2, 3] 10
        (fun a b => a + b) (fun x => x * x) 2
      = (fun a b => a + b) 10
          (manual_parallel_transform_reduce (0 : Int) [1, 2, 3] 0
            (fun a b => a + b) (fun x => x * x) 2) :=
  claim_c7 Int Int 0 (fun a b => a + b) (fun x => x * x) [1, 2, 3] 10 2
    (fun x y z => add_assoc x y z) (fun x => zero_add x) (fun x => add_zero x)
    (by omega)

/-- C8: on `[1, 2, 3, 4, 5]` with addition, squaring and initial value `0`:
`K = 2` gives block sizes `[3, 2]`, blocks `[1,2,3]` and `[4,5]`, partial
results `14` and `41`, merged result `55`; and every `K` from `1` to `5`
also yields `55`. -/
theorem claim_c8 :
    blockSizes 5 2 = [3, 2]
    ∧ blocksOf ([1, 2, 3, 4, 5] : List Int) 2 = [[1, 2, 3], [4, 5]]
    ∧ partials (0 : Int) (fun a b => a + b) (fun x => x * x)
        [1, 2, 3, 4, 5] 2 = [14, 41]
    ∧ manual_parallel_transform_reduce (0 : Int) [1, 2, 3, 4, 5] 0
        (fun a b => a + b) (fun x => x * x) 2 = 55
    ∧ (∀ K : Nat, K ≤ 5 → 1 ≤ K →
        manual_parallel_transform_reduce (0 : Int) [1, 2, 3, 4, 5] 0
          (fun a b => a + b) (fun x => x * x) K = 55) :=
  ⟨by decide, by decide, by decide, by decide, by decide⟩

/-- C10 (implicit): the engine has no identity-value parameter; every slot of
`partials` is the block's transform-reduce seeded with `dflt` (the model of
the value-initialized `T\x7b\x7d`) for every combine operation, with no assumption
relating `dflt` to the operation; concretely, for the combine
`fun a b => a + b + 1` on `Int` (whose neutral element is `-1`, not `0`) the
blocks of `[1, 2]` with `K = 2` still fold from seed `0`, giving partials
`[2, 3]` and merged result `7`. -/
theorem claim_c10 :
    (∀ (T α : Type) (dflt : T) (op : T → T → T) (f : α → T)
        (xs : List α) (K i : Nat),
      (partials dflt op f xs K)[i]?
        = ((blocksOf xs (effectiveK xs.length K))[i]?).map
            (transformFold op f dflt))
    ∧ partials (0 : Int) (fun a b => a + b + 1) (fun x => x) [1, 2] 2 = [2, 3]
    ∧ manual_parallel_transform_reduce (0 : Int) [1, 2] 0
        (fun a b => a + b + 1) (fun x => x) 2 = 7 := by
  refine ⟨?_, by decide, by decide⟩
  intro T α dflt op f xs K i
  rw [partials, List.getElem?_map]

/-- C9 counterexample: the sweep table `[(1, 3e18), (2, 2e18)]` (a sweep of
`K = 1 .. 2` whose recorded times sit at or above the `1e18` sentinel) makes
the driver report best `K = 1`, yet the recorded time of `K = 1` is `3e18`,
which is not `≤` the recorded time `2e18` of `K = 2`. -/
theorem claim_c9_counterexample :
    (sweepBest [(1, (3 * 10 ^ 18 : ℚ)), (2, 2 * 10 ^ 18)]).1 = 1
    ∧ ((1 : Nat), (3 * 10 ^ 18 : ℚ))
        ∈ [((1 : Nat), (3 * 10 ^ 18 : ℚ)), (2, 2 * 10 ^ 18)]
    ∧ ¬ ((3 * 10 ^ 18 : ℚ) ≤ 2 * 10 ^ 18) := by
  refine ⟨?_, by simp, by norm_num⟩
  norm_num [sweepBest, sweepStep]

/-- C9 (amended): whenever the first minimum of the recorded table lies
strictly below the `1e18` sentinel the driver starts from (in particular
whenever all recorded times do), the selection returns exactly the first
entry attaining the minimal recorded time, whose time is `≤` every recorded
time; on ties the first-encountered (smallest swept) `K` wins. -/
theorem claim_c9_amended (pre post : List (Nat × ℚ)) (p : Nat × ℚ)
    (hbig : p.2 < 10 ^ 18)
    (hpre : ∀ q ∈ pre, p.2 < q.2)
    (hpost : ∀ q ∈ post, p.2 ≤ q.2) :
    sweepBest (pre ++ p :: post) = p
    ∧ ∀ q ∈ pre ++ p :: post, (sweepBest (pre ++ p :: post)).2 ≤ q.2 := by
  have h1 := sweepBest_first_min pre post p hbig hpre hpost
  refine ⟨h1, ?_⟩
  intro q hq
  rw [h1]
  rcases List.mem_append.mp hq with h | h
  · exact le_of_lt (hpre q h)
  · rcases List.mem_cons.mp h with h | h
    · simp [h]
    · exact hpost q h

/-- C9 witness: on the table `[(1, 5), (2, 3), (3, 3)]`, with a tie between
`K = 2` and `K = 3`, the driver reports the first minimum `(2, 3)`, whose
time bounds every recorded time. -/
theorem claim_c9_witness :
    sweepBest [(1, (5 : ℚ)), (2, 3), (3, 3)] = (2, 3)
    ∧ ∀ q ∈ [((1 : Nat), (5 : ℚ)), (2, 3), (3, 3)],
        (sweepBest [((1 : Nat), (5 : ℚ)), (2, 3), (3, 3)]).2 ≤ q.2 :=
  claim_c9_amended [(1, 5)] [(3, 3)] (2, 3) (by norm_num) (by decide) (by decide)

end LabTransformReduce
